import Mathlib

/-!
Verification of the session-aware conversational orchestration engine of the
smart-farm assistant.  The Python sources under
`src/services/multimodal_service/` (`server.py`, `chat_memory.py`,
`session_manager.py`, `ollama_client.py`) are shallowly embedded below:

* Python `dict`s become association lists (`AList`) with Python's
  insertion-order / in-place-overwrite semantics;
* Python strings that are scanned character-wise become `List Char`;
* `datetime.now()` becomes an explicit natural-number timestamp parameter,
  one per `now()` call in the source, constrained by a monotone-clock
  hypothesis where a theorem needs it;
* float arithmetic over embeddings becomes exact rational arithmetic; the
  value of a cosine-similarity expression `dot / (norm * norm)` is kept in
  an order-faithful surrogate form (numerator, squared denominator) so that
  comparisons and NaN-ness (denominator zero) are decidable.

Definitions follow the Python source function by function; theorems settle
the specification claims about them.
-/

set_option autoImplicit false

namespace SmartFarm

/-! ## Association lists: the embedding of Python `dict`

A Python `dict` is a sequence of key/value pairs with unique keys kept in
insertion order; assignment to an existing key overwrites the value in
place, assignment to a fresh key appends.  `AList β` embeds a `dict` whose
keys are strings and whose values have type `β`. -/

/-- Embedding of a Python `dict` with string keys. -/
abbrev AList (β : Type) : Type := List (String × β)

namespace AList

variable {β : Type}

/-- Lookup: `d.get? k` is Python `d.get(k)`: the value at the first (in a real
`dict`: the only) binding of `k`, if any. -/
def get? : AList β → String → Option β
  | [], _ => none
  | (k', v) :: rest, k => if k' = k then some v else get? rest k

/-- Assignment: `d.set k v` is Python `d[k] = v`: overwrite in place if `k` is bound,
otherwise append the new binding. -/
def set : AList β → String → β → AList β
  | [], k, v => [(k, v)]
  | (k', v') :: rest, k, v =>
      if k' = k then (k', v) :: rest else (k', v') :: set rest k v

/-- Update: `d.updAll u` is Python `d.update(u)`: assign every binding of `u` into
`d`, in order. -/
def updAll (d u : AList β) : AList β :=
  u.foldl (fun acc p => acc.set p.1 p.2) d

theorem get?_set (d : AList β) (k : String) (v : β) (k' : String) :
    (AList.set d k v).get? k' = if k = k' then some v else AList.get? d k' := by
  induction d with
  | nil =>
      by_cases h : k = k' <;> simp [set, get?, h]
  | cons p rest ih =>
      obtain ⟨k0, v0⟩ := p
      by_cases h0 : k0 = k
      · subst h0
        by_cases h : k0 = k' <;> simp [set, get?, h]
      · by_cases h : k0 = k'
        · subst h
          simp [set, get?, h0, if_neg (Ne.symm h0)]
        · simp [set, get?, h0, h, ih]

theorem get?_eq_none_of_not_mem (d : AList β) (k : String)
    (h : k ∉ d.map Prod.fst) : AList.get? d k = none := by
  induction d with
  | nil => simp [get?]
  | cons p rest ih =>
      obtain ⟨k0, v0⟩ := p
      simp only [List.map_cons, List.mem_cons] at h
      push_neg at h
      simp [get?, Ne.symm h.1, ih h.2]

/-- An `Option` fallback: the first value if present, the second otherwise. -/
def orO {α : Type} : Option α → Option α → Option α
  | some v, _ => some v
  | none, b => b

/-- Looking up a key of `d.updAll u`: the update wins wherever `u` binds
the key (assuming, as for a real Python dict, that the keys of `u` are
distinct), and the old value survives elsewhere. -/
theorem get?_updAll (d u : AList β) (hu : (u.map Prod.fst).Nodup) (k : String) :
    (AList.updAll d u).get? k = orO (AList.get? u k) (AList.get? d k) := by
  induction u generalizing d with
  | nil => simp [updAll, get?, orO]
  | cons p rest ih =>
      obtain ⟨k0, v0⟩ := p
      simp only [List.map_cons, List.nodup_cons] at hu
      have step : AList.updAll d ((k0, v0) :: rest) =
          AList.updAll (AList.set d k0 v0) rest := rfl
      rw [step, ih (AList.set d k0 v0) hu.2]
      by_cases h : k0 = k
      · subst h
        rw [get?_eq_none_of_not_mem rest k0 hu.1]
        simp [get?, orO, get?_set]
      · simp [get?, h, orO, get?_set]

theorem mem_keys_set (d : AList β) (k : String) (v : β) (k' : String) :
    k' ∈ (AList.set d k v).map Prod.fst ↔ k' = k ∨ k' ∈ d.map Prod.fst := by
  induction d with
  | nil => simp [set]
  | cons p rest ih =>
      obtain ⟨k0, v0⟩ := p
      by_cases h0 : k0 = k
      · subst h0
        simp [set]
      · simp [set, h0, ih]
        tauto

theorem nodup_keys_set (d : AList β) (k : String) (v : β)
    (h : (d.map Prod.fst).Nodup) : ((AList.set d k v).map Prod.fst).Nodup := by
  induction d with
  | nil => simp [set]
  | cons p rest ih =>
      obtain ⟨k0, v0⟩ := p
      simp only [List.map_cons, List.nodup_cons] at h
      by_cases h0 : k0 = k
      · subst h0
        simp [set, List.nodup_cons, h.1, h.2]
      · rw [show AList.set ((k0, v0) :: rest) k v = (k0, v0) :: AList.set rest k v by
            simp [AList.set, h0]]
        simp only [List.map_cons, List.nodup_cons]
        refine ⟨?_, ih h.2⟩
        rw [mem_keys_set]
        push_neg
        exact ⟨h0, h.1⟩

theorem nodup_keys_updAll (d u : AList β)
    (h : (d.map Prod.fst).Nodup) : ((AList.updAll d u).map Prod.fst).Nodup := by
  induction u generalizing d with
  | nil => exact h
  | cons p rest ih =>
      exact ih (AList.set d p.1 p.2) (nodup_keys_set d p.1 p.2 h)

end AList

/-! ## Python string helpers

User text is scanned with `crop.lower() in user_input.lower()`; LLM replies
are normalised with `.strip().lower().split()`.  These are embedded over
`List Char`. -/

/-- Python `str.lower()` restricted to the ASCII texts this program scans. -/
def pyLower (s : List Char) : List Char := s.map Char.toLower

/-- The ASCII whitespace accepted by Python `str.strip()` / `str.split()`. -/
def isPySpace (c : Char) : Bool :=
  c = ' ' || c = '\t' || c = '\n' || c = '\r' || c = '\x0b' || c = '\x0c'

/-- Python `str.strip()`. -/
def pyStrip (s : List Char) : List Char :=
  ((s.dropWhile isPySpace).reverse.dropWhile isPySpace).reverse

/-- Worker for `pySplitWS`: `cur` is the (reversed) token in progress. -/
def pySplitWSAux : List Char → List Char → List (List Char)
  | [], cur => if cur.isEmpty then [] else [cur.reverse]
  | c :: cs, cur =>
      if isPySpace c then
        if cur.isEmpty then pySplitWSAux cs []
        else cur.reverse :: pySplitWSAux cs []
      else pySplitWSAux cs (c :: cur)

/-- Python `str.split()` (no argument): split on whitespace runs, dropping
empty tokens. -/
def pySplitWS (s : List Char) : List (List Char) := pySplitWSAux s []

/-- Here `startsW pat s` says: `pat` is a leading segment of `s`. -/
def startsW : List Char → List Char → Bool
  | [], _ => true
  | _ :: _, [] => false
  | a :: as, b :: bs => a = b && startsW as bs

/-- Python `pat in s` on strings: `pat` occurs contiguously inside `s`. -/
def occursIn (pat : List Char) : List Char → Bool
  | [] => pat.isEmpty
  | c :: cs => startsW pat (c :: cs) || occursIn pat cs

/-! ## Context Validator — `server.py`, `validate_and_update_context`
and `chat_memory.py`, `get_context` / `update_context`. -/

/-- The session context dictionaries: `chat_memory._contexts`. -/
abbrev Contexts : Type := AList (AList String)

/-- Embeds `chat_memory.get_context`: `_contexts.setdefault(session_id, {})`.
Returns the context together with the (possibly extended) store. -/
def get_context (cs : Contexts) (sid : String) : AList String × Contexts :=
  match cs.get? sid with
  | some ctx => (ctx, cs)
  | none => ([], cs.set sid [])

/-- Embeds `chat_memory.update_context`: fetch (or create) the session's context
dict and `ctx.update(updates)` it in place. -/
def update_context (cs : Contexts) (sid : String) (updates : AList String) :
    Contexts :=
  let (ctx, cs') := get_context cs sid
  cs'.set sid (ctx.updAll updates)

/-- The crop vocabulary of `validate_and_update_context` (declaration
order). -/
def vocabCrops : List String := ["wheat", "cabbage", "tomato", "corn", "rice", "potato"]

/-- The region vocabulary of `validate_and_update_context` (declaration
order). -/
def vocabRegions : List String := ["punjab", "pakistan", "india", "usa", "canada"]

/-- The `for w in vocab: if w.lower() in user_input.lower(): ...; break`
scan: the first vocabulary word occurring (case-insensitively) in the
user text. -/
def firstVocabMatch (vocab : List String) (userInput : List Char) : Option String :=
  vocab.find? (fun w => occursIn (pyLower w.toList) (pyLower userInput))

/-- The `validated_updates` dict built by
`server.validate_and_update_context`: vocabulary-derived `crop_type` and
`region`, then `validated_updates.update(updates)`. -/
def validated_updates_of (updates : AList String) (userInput : List Char) :
    AList String :=
  let v : AList String :=
    match firstVocabMatch vocabCrops userInput with
    | some c => AList.set [] "crop_type" c
    | none => []
  let v :=
    match firstVocabMatch vocabRegions userInput with
    | some r => v.set "region" r
    | none => v
  v.updAll updates

/-- Embeds `server.validate_and_update_context` as a state transformer: computes
`validated_updates`, writes them into the session context only when they
are non-empty, and returns the applied updates together with the new
context store.  (`session_context`, used by the source only for a log
line, does not influence the result.) -/
def validate_and_update_context (cs : Contexts) (sid : String)
    (updates : AList String) (userInput : List Char) :
    AList String × Contexts :=
  if (validated_updates_of updates userInput).isEmpty then ([], cs)
  else (validated_updates_of updates userInput,
        update_context cs sid (validated_updates_of updates userInput))

/-- The context currently stored for a session (a session with no stored
context behaves as the empty context). -/
def ctxOf (cs : Contexts) (sid : String) : AList String :=
  (AList.get? cs sid).getD []

theorem nodup_keys_validated (updates : AList String) (userInput : List Char) :
    ((validated_updates_of updates userInput).map Prod.fst).Nodup := by
  apply AList.nodup_keys_updAll
  rcases firstVocabMatch vocabCrops userInput with _ | c <;>
    rcases firstVocabMatch vocabRegions userInput with _ | r <;>
      simp [AList.set]

theorem ctxOf_update_context_same (cs : Contexts) (sid : String)
    (vu : AList String) (hvu : (vu.map Prod.fst).Nodup) (k : String) :
    AList.get? (ctxOf (update_context cs sid vu) sid) k =
      AList.orO (AList.get? vu k) (AList.get? (ctxOf cs sid) k) := by
  rcases h : AList.get? cs sid with _ | ctx
  · have hres : update_context cs sid vu =
        AList.set (AList.set cs sid []) sid (AList.updAll [] vu) := by
      unfold update_context get_context
      rw [h]
    rw [hres]
    unfold ctxOf
    simp [AList.get?_set, AList.get?_updAll _ _ hvu, h, AList.get?]
  · have hres : update_context cs sid vu =
        AList.set cs sid (AList.updAll ctx vu) := by
      unfold update_context get_context
      rw [h]
    rw [hres]
    unfold ctxOf
    simp [AList.get?_set, AList.get?_updAll _ _ hvu, h]

theorem ctxOf_update_context_other (cs : Contexts) (sid : String)
    (vu : AList String) (sid' : String) (h : sid' ≠ sid) :
    ctxOf (update_context cs sid vu) sid' = ctxOf cs sid' := by
  unfold update_context get_context
  rcases hc : AList.get? cs sid with _ | ctx <;>
    simp [ctxOf, AList.get?_set, if_neg (Ne.symm h), hc]

/-- Claim C8: the context validator first derives `crop_type` from the
first crop-vocabulary word occurring case-insensitively in the user text
and `region` from the first region-vocabulary word, then layers the
proposed updates on top (the proposal unconditionally wins on a shared
key); the merged mapping is returned to the caller and is written into the
session's stored context by key-level overwrite, leaving every other
context key — and every other session — unchanged.  The hypothesis that
the proposed updates bind each key once always holds of a Python `dict`. -/
theorem validate_and_update_context_spec (cs : Contexts) (sid : String)
    (updates : AList String) (userInput : List Char)
    (hu : (updates.map Prod.fst).Nodup) :
    (validate_and_update_context cs sid updates userInput).1 =
        validated_updates_of updates userInput ∧
    AList.get? (validated_updates_of updates userInput) "crop_type" =
        AList.orO (AList.get? updates "crop_type")
          (firstVocabMatch vocabCrops userInput) ∧
    AList.get? (validated_updates_of updates userInput) "region" =
        AList.orO (AList.get? updates "region")
          (firstVocabMatch vocabRegions userInput) ∧
    (∀ k : String, k ≠ "crop_type" → k ≠ "region" →
        AList.get? (validated_updates_of updates userInput) k =
          AList.get? updates k) ∧
    (∀ k : String,
        AList.get? (ctxOf (validate_and_update_context cs sid updates userInput).2 sid) k =
          AList.orO (AList.get? (validated_updates_of updates userInput) k)
            (AList.get? (ctxOf cs sid) k)) ∧
    (∀ sid' : String, sid' ≠ sid →
        ctxOf (validate_and_update_context cs sid updates userInput).2 sid' =
          ctxOf cs sid') := by
  have hbase : ∀ k : String,
      AList.get? (validated_updates_of updates userInput) k =
        AList.orO (AList.get? updates k)
          (if "crop_type" = k then firstVocabMatch vocabCrops userInput
           else if "region" = k then firstVocabMatch vocabRegions userInput
           else none) := by
    intro k
    unfold validated_updates_of
    rcases hc : firstVocabMatch vocabCrops userInput with _ | c <;>
      rcases hr : firstVocabMatch vocabRegions userInput with _ | r <;>
        rw [AList.get?_updAll _ _ hu] <;> congr 1 <;>
          by_cases h1 : "crop_type" = k <;>
            by_cases h2 : "region" = k <;>
              first
              | exact absurd (h1.trans h2.symm) (by decide)
              | simp [AList.set, AList.get?, h1, h2]
  have hvu := nodup_keys_validated updates userInput
  refine ⟨?_, ?_, ?_, ?_, ?_, ?_⟩
  · unfold validate_and_update_context
    by_cases he : (validated_updates_of updates userInput).isEmpty = true
    · rw [if_pos he]
      exact (List.isEmpty_iff.mp he).symm
    · rw [if_neg he]
  · simpa using hbase "crop_type"
  · simpa using hbase "region"
  · intro k h1 h2
    rw [hbase k, if_neg (Ne.symm h1), if_neg (Ne.symm h2)]
    rcases AList.get? updates k with _ | v <;> simp [AList.orO]
  · intro k
    unfold validate_and_update_context
    by_cases he : (validated_updates_of updates userInput).isEmpty = true
    · have hnil : validated_updates_of updates userInput = [] := List.isEmpty_iff.mp he
      rw [if_pos he]
      simp [hnil, AList.get?, AList.orO]
    · rw [if_neg he]
      exact ctxOf_update_context_same cs sid _ hvu k
  · intro sid' h
    unfold validate_and_update_context
    by_cases he : (validated_updates_of updates userInput).isEmpty = true
    · rw [if_pos he]
    · rw [if_neg he]
      exact ctxOf_update_context_other cs sid _ sid' h

/-- Witness for C8: a concrete session store, user text `"My Cabbage grows
in PUNJAB"` and a proposed update overriding the detected crop. -/
theorem validate_and_update_context_spec_witness :
    ((([("crop_type", "tomato"), ("advice", "rotate")] : AList String).map
        Prod.fst).Nodup) ∧
    AList.get? (validated_updates_of
        [("crop_type", "tomato"), ("advice", "rotate")]
        ("My Cabbage grows in PUNJAB".toList)) "crop_type" =
      AList.orO (AList.get? [("crop_type", "tomato"), ("advice", "rotate")]
          "crop_type")
        (firstVocabMatch vocabCrops ("My Cabbage grows in PUNJAB".toList)) :=
  ⟨by decide,
   (validate_and_update_context_spec [("s1", [("soil_status", "ok")])] "s1"
     [("crop_type", "tomato"), ("advice", "rotate")]
     ("My Cabbage grows in PUNJAB".toList) (by decide)).2.1⟩

/-- Claim C10: when the user text contains no vocabulary crop and no
vocabulary region and the proposed updates are empty, the validation step
returns the empty mapping and leaves the context store exactly unchanged. -/
theorem validate_no_match_frame (cs : Contexts) (sid : String)
    (userInput : List Char)
    (hc : ∀ c ∈ vocabCrops, occursIn (pyLower c.toList) (pyLower userInput) = false)
    (hr : ∀ r ∈ vocabRegions, occursIn (pyLower r.toList) (pyLower userInput) = false) :
    validate_and_update_context cs sid [] userInput = ([], cs) := by
  have hcn : firstVocabMatch vocabCrops userInput = none := by
    rw [firstVocabMatch, List.find?_eq_none]
    intro c hmem
    simp only [Bool.not_eq_true]
    exact hc c hmem
  have hrn : firstVocabMatch vocabRegions userInput = none := by
    rw [firstVocabMatch, List.find?_eq_none]
    intro r hmem
    simp only [Bool.not_eq_true]
    exact hr r hmem
  have : validated_updates_of [] userInput = [] := by
    unfold validated_updates_of
    rw [hcn, hrn]
    rfl
  unfold validate_and_update_context
  rw [this]
  rfl

/-- Witness for C10: the text `"hello there"` matches no crop and no
region. -/
theorem validate_no_match_frame_witness :
    (∀ c ∈ vocabCrops,
        occursIn (pyLower c.toList) (pyLower ("hello there".toList)) = false) ∧
    validate_and_update_context [("s1", [("region", "punjab")])] "s1" []
        ("hello there".toList) = ([], [("s1", [("region", "punjab")])]) :=
  ⟨by decide,
   validate_no_match_frame [("s1", [("region", "punjab")])] "s1"
     ("hello there".toList) (by decide) (by decide)⟩

/-! ## Session Store — `chat_memory.py`

One session's slice of the chat-memory state.  Each `datetime.now()` call
in the source is one explicit `Nat` timestamp parameter, in source
evaluation order; `uuid.uuid4()` becomes an opaque `Nat`. -/

/-- A chat message as built by `chat_memory.add_message`. -/
structure Message where
  role : String
  message : String
  timestamp : Nat
  message_id : Nat
deriving DecidableEq, Repr

/-- A session-metadata record as built by
`chat_memory.create_session_metadata`. -/
structure Metadata where
  created_at : Nat
  last_activity : Nat
  message_count : Nat
  user_messages : Nat
  assistant_messages : Nat
deriving DecidableEq, Repr

/-- One session's slice of the chat-memory state: the `_sessions` entry
(present only once materialised — `defaultdict` membership is not changed
by `in`), the `_session_metadata` entry, and the two on-disk records
`{sid}.json` / `{sid}_metadata.json`. -/
structure SessStore where
  mem : Option (List Message)
  meta : Option Metadata
  logFile : Option (List Message)
  metaFile : Option Metadata
deriving DecidableEq, Repr

/-- A session with no stored data at all. -/
def emptySessStore : SessStore := ⟨none, none, none, none⟩

/-- Embeds `chat_memory.save_session_metadata`: write the in-memory metadata to
its file, if the session has in-memory metadata. -/
def save_session_metadata (s : SessStore) : SessStore :=
  match s.meta with
  | some m => { s with metaFile := some m }
  | none => s

/-- Embeds `chat_memory.load_session_metadata`: load the metadata file into
memory if it exists; return `_session_metadata.get(session_id)`. -/
def load_session_metadata (s : SessStore) : Option Metadata × SessStore :=
  match s.metaFile with
  | some m => (some m, { s with meta := some m })
  | none => (s.meta, s)

/-- Embeds `chat_memory.create_session_metadata`: fresh metadata from two
separate `datetime.now()` readings (`created_at` then `last_activity`),
stored in memory and saved to file. -/
def create_session_metadata (s : SessStore) (t1 t2 : Nat) :
    Metadata × SessStore :=
  let m : Metadata := ⟨t1, t2, 0, 0, 0⟩
  (m, save_session_metadata { s with meta := some m })

/-- Embeds `chat_memory.get_history`: in-memory history if present; else load the
log file (and any metadata file); else create fresh metadata and
materialise the `defaultdict`'s empty list. -/
def get_history (s : SessStore) (t1 t2 : Nat) : List Message × SessStore :=
  match s.mem with
  | some h => (h, s)
  | none =>
    match s.logFile with
    | some l =>
        let s := { s with mem := some l }
        let (_, s) := load_session_metadata s
        (l, s)
    | none =>
        let (_, s) := create_session_metadata s t1 t2
        ([], { s with mem := some [] })

/-- Embeds `chat_memory.update_session_activity`: create metadata if absent
(timestamps `t1`, `t2`), then stamp `last_activity` with a fresh
`now()` reading `tact`, bump `message_count`, and save. -/
def update_session_activity (s : SessStore) (t1 t2 tact : Nat) : SessStore :=
  let s := if s.meta.isNone then (create_session_metadata s t1 t2).2 else s
  match s.meta with
  | some m =>
      save_session_metadata
        { s with meta := some { m with last_activity := tact,
                                       message_count := m.message_count + 1 } }
  | none => s

/-- The timestamps consumed by one `add_message` call, in source
evaluation order: `tg1`/`tg2` by a `create_session_metadata` inside
`get_history` (read only on a fresh session), `tmsg` for the message's own
timestamp, `tu1`/`tu2` by a create inside `update_session_activity` (read
only if metadata is absent), `tact` for `last_activity`; `mid` is the
`uuid4` of the message. -/
structure AppendEv where
  role : String
  text : String
  mid : Nat
  tg1 : Nat
  tg2 : Nat
  tmsg : Nat
  tu1 : Nat
  tu2 : Nat
  tact : Nat
deriving DecidableEq, Repr

/-- Embeds `chat_memory.add_message`: fetch history, append a timestamped
message, update activity metadata, bump the per-role counter, save
metadata, write the log file. -/
def add_message (s : SessStore) (e : AppendEv) : SessStore :=
  let (history, s) := get_history s e.tg1 e.tg2
  let history := history ++ [⟨e.role, e.text, e.tmsg, e.mid⟩]
  let s := { s with mem := some history }
  let s := update_session_activity s e.tu1 e.tu2 e.tact
  let s :=
    if e.role = "User" then
      { s with meta := s.meta.map (fun m =>
          { m with user_messages := m.user_messages + 1 }) }
    else if e.role = "Assistant" then
      { s with meta := s.meta.map (fun m =>
          { m with assistant_messages := m.assistant_messages + 1 }) }
    else s
  let s := save_session_metadata s
  { s with logFile := some history }

/-- A sequence of appends against one session. -/
def runAppendsFrom (s : SessStore) (evs : List AppendEv) : SessStore :=
  evs.foldl add_message s

/-- The state of a session freshly created from empty state (the first
`get_history` reference, reading `now()` twice). -/
def sessionStart (tc1 tc2 : Nat) : SessStore :=
  (get_history emptySessStore tc1 tc2).2

/-- The state after `N` appends against a session that started empty. -/
def sessionAfter (tc1 tc2 : Nat) (evs : List AppendEv) : SessStore :=
  runAppendsFrom (sessionStart tc1 tc2) evs

/-- The session's `last_activity`, `0` when it has no metadata. -/
def lastActOf (s : SessStore) : Nat :=
  (s.meta.map Metadata.last_activity).getD 0

/-- One step of `add_message` on a session whose history and metadata are
already in memory, fully characterised. -/
theorem add_message_eq (s : SessStore) (e : AppendEv) (msgs : List Message)
    (m : Metadata) (hm : s.mem = some msgs) (hmeta : s.meta = some m) :
    ∃ m' : Metadata,
      add_message s e =
        { mem := some (msgs ++ [⟨e.role, e.text, e.tmsg, e.mid⟩]),
          meta := some m',
          logFile := some (msgs ++ [⟨e.role, e.text, e.tmsg, e.mid⟩]),
          metaFile := some m' } ∧
      m'.message_count = m.message_count + 1 ∧
      m'.last_activity = e.tact ∧
      m'.created_at = m.created_at := by
  by_cases hu : e.role = "User"
  · refine ⟨⟨m.created_at, e.tact, m.message_count + 1,
      m.user_messages + 1, m.assistant_messages⟩, ?_, rfl, rfl, rfl⟩
    simp [add_message, get_history, update_session_activity,
      save_session_metadata, hm, hmeta, hu]
  · by_cases ha : e.role = "Assistant"
    · refine ⟨⟨m.created_at, e.tact, m.message_count + 1,
        m.user_messages, m.assistant_messages + 1⟩, ?_, rfl, rfl, rfl⟩
      simp [add_message, get_history, update_session_activity,
        save_session_metadata, hm, hmeta, hu, ha]
    · refine ⟨⟨m.created_at, e.tact, m.message_count + 1,
        m.user_messages, m.assistant_messages⟩, ?_, rfl, rfl, rfl⟩
      simp [add_message, get_history, update_session_activity,
        save_session_metadata, hm, hmeta, hu, ha]

/-- The count invariant of one session: in-memory metadata matches the
in-memory history, which matches the persisted log (a never-appended
session has no log file yet, which reads as the empty transcript). -/
def CountInv (s : SessStore) : Prop :=
  ∃ msgs m, s.mem = some msgs ∧ s.meta = some m ∧
    m.message_count = msgs.length ∧ s.logFile.getD [] = msgs

theorem runAppends_counts (s : SessStore) (evs : List AppendEv)
    (hs : CountInv s) :
    CountInv (runAppendsFrom s evs) ∧
    ((runAppendsFrom s evs).mem.getD []).length =
      (s.mem.getD []).length + evs.length := by
  induction evs generalizing s with
  | nil => simpa [runAppendsFrom] using hs
  | cons e es ih =>
      obtain ⟨msgs, m, hm, hmeta, hcount, hlog⟩ := hs
      obtain ⟨m', heq, hc', _, _⟩ := add_message_eq s e msgs m hm hmeta
      have hstep : runAppendsFrom s (e :: es) =
          runAppendsFrom (add_message s e) es := rfl
      have hinv : CountInv (add_message s e) := by
        refine ⟨msgs ++ [⟨e.role, e.text, e.tmsg, e.mid⟩], m', ?_, ?_, ?_, ?_⟩ <;>
          simp [heq, hc', hcount]
      obtain ⟨h1, h2⟩ := ih (add_message s e) hinv
      refine ⟨hstep ▸ h1, ?_⟩
      rw [hstep, h2, heq]
      simp [hm]
      omega

/-- Claim C2: from a session created empty, after any sequence of `N`
appends the metadata's `message_count` is `N`, the in-memory message list
has length `N`, and the persisted message log has length `N`. -/
theorem message_count_eq_appends (tc1 tc2 : Nat) (evs : List AppendEv) :
    ((sessionAfter tc1 tc2 evs).mem.getD []).length = evs.length ∧
    (sessionAfter tc1 tc2 evs).meta.map Metadata.message_count =
      some evs.length ∧
    ((sessionAfter tc1 tc2 evs).logFile.getD []).length = evs.length := by
  have hstart : CountInv (sessionStart tc1 tc2) :=
    ⟨[], ⟨tc1, tc2, 0, 0, 0⟩, rfl, rfl, rfl, rfl⟩
  obtain ⟨hinv, hlen⟩ := runAppends_counts (sessionStart tc1 tc2) evs hstart
  obtain ⟨msgs, m, hm, hmeta, hcount, hlog⟩ := hinv
  have hlen0 : ((sessionStart tc1 tc2).mem.getD []).length = 0 := rfl
  have hSA : sessionAfter tc1 tc2 evs =
      runAppendsFrom (sessionStart tc1 tc2) evs := rfl
  have hmsgs_len : msgs.length = evs.length := by
    have h := hlen
    rw [hm, hlen0] at h
    simpa using h
  refine ⟨?_, ?_, ?_⟩
  · rw [hSA, hm]
    exact hmsgs_len
  · rw [hSA, hmeta]
    show some m.message_count = some evs.length
    rw [hcount, hmsgs_len]
  · rw [hSA, hlog, hmsgs_len]

/-- The `now()` readings an append may consume, in source evaluation
order. -/
def timesOf : List AppendEv → List Nat
  | [] => []
  | e :: es => e.tg1 :: e.tg2 :: e.tmsg :: e.tu1 :: e.tu2 :: e.tact :: timesOf es

/-- The wall clock is non-decreasing across every `now()` reading of a
run: the two readings of session creation, then the readings of each
append in order. -/
def ClockOrdered (tc1 tc2 : Nat) (evs : List AppendEv) : Prop :=
  List.Chain' (· ≤ ·) (tc1 :: tc2 :: timesOf evs)

/-- Boolean check that a list of timestamps is non-decreasing. -/
def chainLE : List Nat → Bool
  | [] => true
  | [_] => true
  | a :: b :: rest => a ≤ b && chainLE (b :: rest)

theorem chainLE_iff : ∀ l : List Nat, chainLE l = true ↔ List.Chain' (· ≤ ·) l
  | [] => by simp [chainLE]
  | [_] => by simp [chainLE]
  | a :: b :: rest => by
      rw [List.chain'_cons, chainLE, Bool.and_eq_true, decide_eq_true_iff]
      exact and_congr Iff.rfl (chainLE_iff (b :: rest))

instance (tc1 tc2 : Nat) (evs : List AppendEv) :
    Decidable (ClockOrdered tc1 tc2 evs) :=
  decidable_of_iff _ (chainLE_iff (tc1 :: tc2 :: timesOf evs))

/-- Counterexample to claim C6 as stated: `add_message` stamps the message
with one `now()` reading and `last_activity` with a later one, so under a
perfectly legal monotone clock the stored `last_activity` (here `2`) is
strictly later than the timestamp of the most recently appended message
(here `1`). -/
theorem last_activity_ne_latest_timestamp :
    ClockOrdered 0 0 [⟨"User", "hi", 0, 0, 0, 1, 1, 1, 2⟩] ∧
    ¬ (lastActOf (sessionAfter 0 0 [⟨"User", "hi", 0, 0, 0, 1, 1, 1, 2⟩]) =
        ((((sessionAfter 0 0 [⟨"User", "hi", 0, 0, 0, 1, 1, 1, 2⟩]).mem.getD
            []).map Message.timestamp).getLast?.getD 0)) := by
  constructor
  · decide
  · decide

/-- The activity invariant: every stored message's timestamp is bounded by
the metadata's `last_activity`. -/
def ActInv (s : SessStore) : Prop :=
  ∃ msgs m, s.mem = some msgs ∧ s.meta = some m ∧
    ∀ msg ∈ msgs, msg.timestamp ≤ m.last_activity

theorem scanl_head {α β : Type} (f : β → α → β) (b : β) (l : List α) :
    ∃ t, List.scanl f b l = b :: t := by
  cases l <;> simp [List.scanl]

theorem scanl_activity (s : SessStore) (evs : List AppendEv)
    (hinv : ActInv s)
    (hch : List.Chain' (· ≤ ·) (lastActOf s :: timesOf evs)) :
    List.Chain' (· ≤ ·) ((List.scanl add_message s evs).map lastActOf) ∧
    ∀ s' ∈ List.scanl add_message s evs,
      ∀ msg ∈ s'.mem.getD [], msg.timestamp ≤ lastActOf s' := by
  induction evs generalizing s with
  | nil =>
      obtain ⟨msgs, m, hm, hmeta, hts⟩ := hinv
      refine ⟨by simp, ?_⟩
      intro s' hs' msg hmsg
      simp only [List.scanl, List.mem_singleton] at hs'
      subst hs'
      rw [hm] at hmsg
      simp only [Option.getD_some] at hmsg
      have := hts msg hmsg
      simpa [lastActOf, hmeta] using this
  | cons e es ih =>
      obtain ⟨msgs, m, hm, hmeta, hts⟩ := hinv
      obtain ⟨m', heq, _, hact, _⟩ := add_message_eq s e msgs m hm hmeta
      simp only [timesOf, List.chain'_cons] at hch
      obtain ⟨h1, h2, h3, h4, h5, h6, hch'⟩ := hch
      have hls : lastActOf s = m.last_activity := by
        simp [lastActOf, hmeta]
      have hlact : lastActOf (add_message s e) = e.tact := by
        rw [heq]
        simp [lastActOf, hact]
      have hinv' : ActInv (add_message s e) := by
        refine ⟨msgs ++ [⟨e.role, e.text, e.tmsg, e.mid⟩], m',
          by rw [heq], by rw [heq], ?_⟩
        intro msg hmsg
        rw [hact]
        rcases List.mem_append.mp hmsg with h | h
        · have := hts msg h
          omega
        · simp only [List.mem_singleton] at h
          subst h
          show e.tmsg ≤ e.tact
          omega
      have hch'' : List.Chain' (· ≤ ·)
          (lastActOf (add_message s e) :: timesOf es) := by
        rw [hlact]
        exact hch'
      obtain ⟨hchain_t, hmem_t⟩ := ih (add_message s e) hinv' hch''
      obtain ⟨t, ht⟩ := scanl_head add_message (add_message s e) es
      constructor
      · rw [List.scanl_cons, ht]
        rw [ht] at hchain_t
        simp only [List.singleton_append, List.map_cons] at hchain_t ⊢
        exact List.Chain'.cons (by omega) hchain_t
      · intro s' hs' msg hmsg
        rw [List.scanl_cons] at hs'
        rcases List.mem_append.mp hs' with h | h
        · rw [List.mem_singleton] at h
          subst h
          rw [hm] at hmsg
          simp only [Option.getD_some] at hmsg
          have := hts msg hmsg
          omega
        · exact hmem_t s' h msg hmsg

/-- Claim C6 (amended): across any clock-ordered run of appends against a
session created empty, `last_activity` is monotonically non-decreasing,
and after each append it is at least — not in general equal to — the
timestamp of every stored message (the source stamps the message and
`last_activity` with two separate `now()` readings). -/
theorem last_activity_monotone (tc1 tc2 : Nat) (evs : List AppendEv)
    (hclock : ClockOrdered tc1 tc2 evs) :
    List.Chain' (· ≤ ·)
      ((List.scanl add_message (sessionStart tc1 tc2) evs).map lastActOf) ∧
    ∀ s' ∈ List.scanl add_message (sessionStart tc1 tc2) evs,
      ∀ msg ∈ s'.mem.getD [], msg.timestamp ≤ lastActOf s' := by
  apply scanl_activity
  · exact ⟨[], ⟨tc1, tc2, 0, 0, 0⟩, rfl, rfl, by simp⟩
  · have hhead : lastActOf (sessionStart tc1 tc2) = tc2 := rfl
    rw [hhead]
    exact hclock.tail

/-- Witness for the amended C6 at a concrete clock-ordered run. -/
theorem last_activity_monotone_witness :
    ClockOrdered 0 1 [⟨"User", "hi", 7, 2, 3, 4, 5, 6, 8⟩] ∧
    (List.Chain' (· ≤ ·)
      ((List.scanl add_message (sessionStart 0 1)
          [⟨"User", "hi", 7, 2, 3, 4, 5, 6, 8⟩]).map lastActOf) ∧
     ∀ s' ∈ List.scanl add_message (sessionStart 0 1)
          [⟨"User", "hi", 7, 2, 3, 4, 5, 6, 8⟩],
       ∀ msg ∈ s'.mem.getD [], msg.timestamp ≤ lastActOf s') :=
  ⟨by decide, last_activity_monotone 0 1 _ (by decide)⟩

/-! ## Lifecycle Manager export — `session_manager.export_session_data` -/

/-- Embeds `chat_memory.get_session_stats`: reload the metadata record and
return its fields as a stats record, `None` when there is none. -/
def get_session_stats (s : SessStore) : Option Metadata × SessStore :=
  load_session_metadata s

/-- The export artifact written by `session_manager.export_session_data`
(`exported_at` is one further `now()` reading). -/
structure ExportData where
  chat_history : List Message
  session_stats : Option Metadata
  exported_at : Nat
deriving DecidableEq, Repr

/-- Embeds `session_manager.export_session_data`: fetch history and stats; only
when both are absent report "no data found" (`none`); otherwise build and
persist the artifact. -/
def export_session_data (s : SessStore) (t1 t2 texp : Nat) :
    Option ExportData × SessStore :=
  let (history, s) := get_history s t1 t2
  let (stats, s) := get_session_stats s
  if history.isEmpty && stats.isNone then (none, s)
  else (some ⟨history, stats, texp⟩, s)

/-- Claim C7 is violated by the code: exporting a session with no stored
data does not yield the "not found" result.  `get_history` lazily creates
fresh metadata for the unseen session, so the stats lookup always
succeeds and the export returns an artifact with an empty transcript and
zero-count stats — the source's own "No data found" branch is
unreachable. -/
theorem export_empty_session_produces_artifact (t1 t2 texp : Nat) :
    (export_session_data emptySessStore t1 t2 texp).1 =
      some ⟨[], some ⟨t1, t2, 0, 0, 0⟩, texp⟩ := rfl

/-! ## A stable sort

Python's `list.sort` and numpy's argsort (as exercised here, on small
inputs) are stable: equal keys keep their relative order.  Stable
insertion via a left fold models this: each element is placed after every
already-placed element that compares `≤` to it. -/

/-- Insert `x` after every element that compares `≤ x`. -/
def insertLE {α : Type} (le : α → α → Bool) (x : α) : List α → List α
  | [] => [x]
  | y :: ys => if le y x then y :: insertLE le x ys else x :: y :: ys

/-- Stable sort by repeated insertion (later elements go after equal
earlier ones). -/
def stableSortLE {α : Type} (le : α → α → Bool) (l : List α) : List α :=
  l.foldl (fun acc x => insertLE le x acc) []

theorem insertLE_perm {α : Type} (le : α → α → Bool) (x : α) (l : List α) :
    (insertLE le x l).Perm (x :: l) := by
  induction l with
  | nil => simp [insertLE]
  | cons y ys ih =>
      by_cases h : le y x = true
      · rw [insertLE, if_pos h]
        exact (ih.cons y).trans (List.Perm.swap x y ys)
      · rw [insertLE, if_neg h]

theorem sortAux_perm {α : Type} (le : α → α → Bool) :
    ∀ (l acc : List α), (l.foldl (fun a x => insertLE le x a) acc).Perm (acc ++ l)
  | [], acc => by simp
  | x :: xs, acc => by
      rw [List.foldl_cons]
      refine (sortAux_perm le xs (insertLE le x acc)).trans ?_
      refine (((insertLE_perm le x acc).append_right xs).trans ?_)
      simpa using List.perm_middle.symm

theorem stableSortLE_perm {α : Type} (le : α → α → Bool) (l : List α) :
    (stableSortLE le l).Perm l := by
  simpa [stableSortLE] using sortAux_perm le l []

theorem mem_insertLE {α : Type} (le : α → α → Bool) (x : α) (l : List α)
    (z : α) : z ∈ insertLE le x l ↔ z = x ∨ z ∈ l := by
  have := (insertLE_perm le x l).mem_iff (a := z)
  simpa using this

theorem insertLE_pairwise {α : Type} (le : α → α → Bool)
    (htot : ∀ a b, le a b = true ∨ le b a = true)
    (htrans : ∀ a b c, le a b = true → le b c = true → le a c = true)
    (x : α) (l : List α) (h : l.Pairwise (fun a b => le a b = true)) :
    (insertLE le x l).Pairwise (fun a b => le a b = true) := by
  induction l with
  | nil => simp [insertLE]
  | cons y ys ih =>
      rcases List.pairwise_cons.mp h with ⟨hy, hys⟩
      by_cases hle : le y x = true
      · rw [insertLE, if_pos hle]
        refine List.pairwise_cons.mpr ⟨?_, ih hys⟩
        intro z hz
        rcases (mem_insertLE le x ys z).mp hz with rfl | hz
        · exact hle
        · exact hy z hz
      · rw [insertLE, if_neg hle]
        have hxy : le x y = true := (htot x y).resolve_right (by simpa using hle)
        refine List.pairwise_cons.mpr ⟨?_, h⟩
        intro z hz
        rcases List.mem_cons.mp hz with rfl | hz
        · exact hxy
        · exact htrans x y z hxy (hy z hz)

theorem stableSortLE_pairwise {α : Type} (le : α → α → Bool)
    (htot : ∀ a b, le a b = true ∨ le b a = true)
    (htrans : ∀ a b c, le a b = true → le b c = true → le a c = true)
    (l : List α) :
    (stableSortLE le l).Pairwise (fun a b => le a b = true) := by
  suffices h : ∀ (l acc : List α), acc.Pairwise (fun a b => le a b = true) →
      (l.foldl (fun a x => insertLE le x a) acc).Pairwise
        (fun a b => le a b = true) by
    exact h l [] (by simp)
  intro l
  induction l with
  | nil => intro acc h; simpa using h
  | cons x xs ih =>
      intro acc h
      rw [List.foldl_cons]
      exact ih (insertLE le x acc) (insertLE_pairwise le htot htrans x acc h)

/-! ## Lifecycle eviction — `chat_memory.cleanup_old_sessions`

The store, as the sweep sees it on disk: the chat-log files (their session
ids, in `glob` enumeration order) and the metadata files (session id ↦
the `last_activity` timestamp read from the file).  Timestamps are `Int`
in units of days; `cutoff = now - max_age_days`. -/

/-- One entry of the `session_info` list built by the sweep. -/
structure SessInfo where
  sid : String
  lastActivity : Int
deriving DecidableEq, Repr

/-- The key order of `session_info.sort(key=lambda x: x["last_activity"])`. -/
def infoLE (a b : SessInfo) : Bool := a.lastActivity ≤ b.lastActivity

/-- Building `session_info`: every chat-log file whose metadata file
exists contributes its id and last activity; the rest are skipped. -/
def sessionInfoOf (logs : List String) (metas : AList Int) : List SessInfo :=
  logs.filterMap (fun sid => (AList.get? metas sid).map (fun la => ⟨sid, la⟩))

/-- The duplicate-removal pass over `sessions_to_remove` (first occurrence
kept, `seen_ids` accumulated). -/
def dedupBySid : List SessInfo → List String → List SessInfo
  | [], _ => []
  | s :: rest, seen =>
      if s.sid ∈ seen then dedupBySid rest seen
      else s :: dedupBySid rest (s.sid :: seen)

/-- The list of sessions the sweep will remove: those with
`last_activity < cutoff`, then — if the store holds more than
`max_sessions` sessions — the oldest excess ones, de-duplicated. -/
def sessions_to_remove (logs : List String) (metas : AList Int)
    (now maxAgeDays : Int) (maxSessions : Nat) : List SessInfo :=
  dedupBySid
    ((stableSortLE infoLE (sessionInfoOf logs metas)).filter
        (fun s => decide (s.lastActivity < now - maxAgeDays)) ++
      (if maxSessions < (stableSortLE infoLE (sessionInfoOf logs metas)).length
       then (stableSortLE infoLE (sessionInfoOf logs metas)).take
              ((stableSortLE infoLE (sessionInfoOf logs metas)).length - maxSessions)
       else []))
    []

/-- The store after the sweep plus the returned `removed_count`. -/
structure CleanupResult where
  logs : List String
  metas : AList Int
  removed_count : Nat
deriving DecidableEq, Repr

/-- Embeds `chat_memory.cleanup_old_sessions`: delete, for every session slated
for removal, both its chat-log file and its metadata file, counting each
session once. -/
def cleanup_old_sessions (logs : List String) (metas : AList Int)
    (now maxAgeDays : Int) (maxSessions : Nat) : CleanupResult :=
  ⟨logs.filter (fun sid => !decide (sid ∈
      (sessions_to_remove logs metas now maxAgeDays maxSessions).map SessInfo.sid)),
   metas.filter (fun p => !decide (p.1 ∈
      (sessions_to_remove logs metas now maxAgeDays maxSessions).map SessInfo.sid)),
   (sessions_to_remove logs metas now maxAgeDays maxSessions).length⟩

theorem mem_map_sid_dedupBySid (l : List SessInfo) (seen : List String)
    (x : String) :
    x ∈ (dedupBySid l seen).map SessInfo.sid ↔
      x ∈ l.map SessInfo.sid ∧ x ∉ seen := by
  induction l generalizing seen with
  | nil => simp [dedupBySid]
  | cons s rest ih =>
      by_cases h : s.sid ∈ seen
      · rw [dedupBySid, if_pos h]
        rw [ih]
        simp only [List.map_cons, List.mem_cons]
        constructor
        · tauto
        · rintro ⟨rfl | hx, hns⟩
          · exact absurd h hns
          · exact ⟨hx, hns⟩
      · rw [dedupBySid, if_neg h]
        simp only [List.map_cons, List.mem_cons, ih, List.mem_cons]
        constructor
        · rintro (rfl | ⟨hx, hnotin⟩)
          · exact ⟨Or.inl rfl, h⟩
          · push_neg at hnotin
            exact ⟨Or.inr hx, hnotin.2⟩
        · rintro ⟨rfl | hx, hns⟩
          · exact Or.inl rfl
          · by_cases hxs : x = s.sid
            · exact Or.inl hxs
            · exact Or.inr ⟨hx, by simp [hxs, hns]⟩

theorem nodup_map_sid_dedupBySid (l : List SessInfo) (seen : List String) :
    ((dedupBySid l seen).map SessInfo.sid).Nodup := by
  induction l generalizing seen with
  | nil => simp [dedupBySid]
  | cons s rest ih =>
      by_cases h : s.sid ∈ seen
      · rw [dedupBySid, if_pos h]
        exact ih seen
      · rw [dedupBySid, if_neg h]
        simp only [List.map_cons, List.nodup_cons]
        refine ⟨?_, ih (s.sid :: seen)⟩
        rw [mem_map_sid_dedupBySid]
        simp

theorem sessionInfoOf_map_sid (logs : List String) (metas : AList Int)
    (hmeta : ∀ sid ∈ logs, (AList.get? metas sid).isSome) :
    (sessionInfoOf logs metas).map SessInfo.sid = logs := by
  induction logs with
  | nil => rfl
  | cons sid rest ih =>
      rcases hsome : AList.get? metas sid with _ | la
      · exact absurd (hmeta sid (by simp)) (by simp [hsome])
      · have hstep : sessionInfoOf (sid :: rest) metas =
            ⟨sid, la⟩ :: sessionInfoOf rest metas := by
          simp [sessionInfoOf, List.filterMap_cons, hsome]
        rw [hstep, List.map_cons, ih (fun s hs => hmeta s (by simp [hs]))]

theorem mem_sessionInfoOf (logs : List String) (metas : AList Int)
    (s : SessInfo) (h : s ∈ sessionInfoOf logs metas) :
    s.sid ∈ logs ∧ AList.get? metas s.sid = some s.lastActivity := by
  rcases List.mem_filterMap.mp h with ⟨sid, hsid, heq⟩
  rcases hg : AList.get? metas sid with _ | la <;> rw [hg] at heq
  · exact Option.noConfusion heq
  · have hs : s = ⟨sid, la⟩ := by
      have h2 : some (⟨sid, la⟩ : SessInfo) = some s := heq
      exact (Option.some_inj.mp h2).symm
    subst hs
    exact ⟨hsid, hg⟩

theorem mem_sessionInfoOf_intro (logs : List String) (metas : AList Int)
    (sid : String) (la : Int) (hsid : sid ∈ logs)
    (hla : AList.get? metas sid = some la) :
    (⟨sid, la⟩ : SessInfo) ∈ sessionInfoOf logs metas := by
  apply List.mem_filterMap.mpr
  exact ⟨sid, hsid, by rw [hla]; rfl⟩

theorem infoLE_total (a b : SessInfo) : infoLE a b = true ∨ infoLE b a = true := by
  unfold infoLE
  rcases le_total a.lastActivity b.lastActivity with h | h
  · exact Or.inl (by simpa using h)
  · exact Or.inr (by simpa using h)

theorem infoLE_trans (a b c : SessInfo) (h1 : infoLE a b = true)
    (h2 : infoLE b c = true) : infoLE a c = true := by
  unfold infoLE at *
  simp only [decide_eq_true_iff] at *
  exact le_trans h1 h2

theorem get?_filter_bad (metas : AList Int) (bad : List String) (k : String) :
    AList.get? (metas.filter (fun p => !decide (p.1 ∈ bad))) k =
      if k ∈ bad then none else AList.get? metas k := by
  induction metas with
  | nil => by_cases h : k ∈ bad <;> simp [AList.get?, h]
  | cons p rest ih =>
      obtain ⟨k0, v⟩ := p
      by_cases h0 : k0 ∈ bad
      · rw [show List.filter (fun p => !decide (p.1 ∈ bad)) ((k0, v) :: rest) =
              List.filter (fun p => !decide (p.1 ∈ bad)) rest by simp [h0]]
        rw [ih]
        by_cases hk : k ∈ bad
        · rw [if_pos hk, if_pos hk]
        · rw [if_neg hk, if_neg hk]
          have hne : k0 ≠ k := fun h => hk (h ▸ h0)
          rw [AList.get?, if_neg hne]
      · rw [show List.filter (fun p => !decide (p.1 ∈ bad)) ((k0, v) :: rest) =
              (k0, v) :: List.filter (fun p => !decide (p.1 ∈ bad)) rest by
            simp [h0]]
        by_cases he : k0 = k
        · subst he
          rw [AList.get?, if_pos rfl, if_neg h0, AList.get?, if_pos rfl]
        · rw [AList.get?, if_neg he, ih, AList.get?, if_neg he]

/-- Claim C3: one sweep of `cleanup_old_sessions` removes exactly the
stored sessions whose `last_activity` is strictly older than the cutoff
`now - max_age_days`, plus — only when the session count exceeds
`max_sessions` — exactly the oldest-by-`last_activity` excess sessions
(the prefix of the activity-sorted list, every member of which is no newer
than every session kept by the count rule); a session matched by both
rules is removed and counted once; removal deletes both the chat-log
record and the metadata record.  The hypothesis says each stored session
has both records. -/
theorem cleanup_old_sessions_spec (logs : List String) (metas : AList Int)
    (now maxAgeDays : Int) (maxSessions : Nat)
    (hmeta : ∀ sid ∈ logs, (AList.get? metas sid).isSome) :
    (∀ sid la, sid ∈ logs → AList.get? metas sid = some la →
      (sid ∈ (sessions_to_remove logs metas now maxAgeDays maxSessions).map
          SessInfo.sid ↔
        (la < now - maxAgeDays ∨
         (maxSessions < logs.length ∧
          sid ∈ ((stableSortLE infoLE (sessionInfoOf logs metas)).take
                   (logs.length - maxSessions)).map SessInfo.sid)))) ∧
    (∀ x ∈ (stableSortLE infoLE (sessionInfoOf logs metas)).take
             (logs.length - maxSessions),
       ∀ y ∈ (stableSortLE infoLE (sessionInfoOf logs metas)).drop
             (logs.length - maxSessions),
       x.lastActivity ≤ y.lastActivity) ∧
    (∀ sid', sid' ∈ (cleanup_old_sessions logs metas now maxAgeDays
        maxSessions).logs ↔
        (sid' ∈ logs ∧
         sid' ∉ (sessions_to_remove logs metas now maxAgeDays maxSessions).map
           SessInfo.sid)) ∧
    (∀ sid', AList.get? (cleanup_old_sessions logs metas now maxAgeDays
        maxSessions).metas sid' =
        if sid' ∈ (sessions_to_remove logs metas now maxAgeDays
            maxSessions).map SessInfo.sid
        then none else AList.get? metas sid') ∧
    (cleanup_old_sessions logs metas now maxAgeDays maxSessions).removed_count =
      ((sessions_to_remove logs metas now maxAgeDays maxSessions).map
        SessInfo.sid).length ∧
    ((sessions_to_remove logs metas now maxAgeDays maxSessions).map
      SessInfo.sid).Nodup := by
  have hmap := sessionInfoOf_map_sid logs metas hmeta
  have hperm : (stableSortLE infoLE (sessionInfoOf logs metas)).Perm
      (sessionInfoOf logs metas) := stableSortLE_perm _ _
  have hlen : (stableSortLE infoLE (sessionInfoOf logs metas)).length =
      logs.length := by
    rw [hperm.length_eq]
    calc (sessionInfoOf logs metas).length
        = ((sessionInfoOf logs metas).map SessInfo.sid).length :=
          (List.length_map _ _).symm
      _ = logs.length := by rw [hmap]
  refine ⟨?_, ?_, ?_, ?_, ?_, ?_⟩
  · intro sid la hsid hla
    have hbyAge : sid ∈ ((stableSortLE infoLE (sessionInfoOf logs
        metas)).filter (fun s => decide (s.lastActivity < now - maxAgeDays))).map
          SessInfo.sid ↔ la < now - maxAgeDays := by
      constructor
      · intro hm
        rcases List.mem_map.mp hm with ⟨s, hs, hseq⟩
        rcases List.mem_filter.mp hs with ⟨hsSorted, hp⟩
        have hsInfo : s ∈ sessionInfoOf logs metas := hperm.mem_iff.mp hsSorted
        have hg := (mem_sessionInfoOf logs metas s hsInfo).2
        rw [hseq, hla] at hg
        have hval : s.lastActivity = la := Option.some_inj.mp hg.symm
        rw [← hval]
        exact of_decide_eq_true hp
      · intro hlt
        apply List.mem_map.mpr
        refine ⟨⟨sid, la⟩, ?_, rfl⟩
        apply List.mem_filter.mpr
        exact ⟨hperm.mem_iff.mpr (mem_sessionInfoOf_intro logs metas sid la
          hsid hla), by simpa using hlt⟩
    have hbyCount : sid ∈ ((if maxSessions < (stableSortLE infoLE
        (sessionInfoOf logs metas)).length
        then (stableSortLE infoLE (sessionInfoOf logs metas)).take
              ((stableSortLE infoLE (sessionInfoOf logs metas)).length -
                maxSessions)
        else []) : List SessInfo).map SessInfo.sid ↔
        (maxSessions < logs.length ∧
         sid ∈ ((stableSortLE infoLE (sessionInfoOf logs metas)).take
                  (logs.length - maxSessions)).map SessInfo.sid) := by
      rw [hlen]
      by_cases hcond : maxSessions < logs.length
      · rw [if_pos hcond]
        simp [hcond]
      · rw [if_neg hcond]
        simp [hcond]
    rw [sessions_to_remove, mem_map_sid_dedupBySid]
    simp only [List.map_append, List.mem_append, List.not_mem_nil,
      not_false_iff, and_true]
    rw [hbyAge, hbyCount]
  · intro x hx y hy
    have hpair := stableSortLE_pairwise infoLE infoLE_total infoLE_trans
      (sessionInfoOf logs metas)
    rw [← List.take_append_drop (logs.length - maxSessions)
      (stableSortLE infoLE (sessionInfoOf logs metas))] at hpair
    have h3 := (List.pairwise_append.mp hpair).2.2 x hx y hy
    unfold infoLE at h3
    exact of_decide_eq_true h3
  · intro sid'
    rw [cleanup_old_sessions]
    simp only [List.mem_filter, Bool.not_eq_true', decide_eq_false_iff_not]
  · intro sid'
    rw [cleanup_old_sessions]
    exact get?_filter_bad metas _ sid'
  · rw [cleanup_old_sessions]
    exact (List.length_map _ _).symm
  · exact nodup_map_sid_dedupBySid _ _

/-- Witness for C3, matching the spec's own example: three sessions with
activity 40, 10 and 1 days ago, `max_age_days = 30`, `max_sessions =
100` — exactly the 40-day-old session is removed, once, from both
records. -/
theorem cleanup_old_sessions_spec_witness :
    (∀ sid ∈ ["s1", "s2", "s3"],
       (AList.get? [("s1", (-40 : Int)), ("s2", -10), ("s3", -1)] sid).isSome) ∧
    (∀ sid', AList.get? (cleanup_old_sessions ["s1", "s2", "s3"]
        [("s1", (-40 : Int)), ("s2", -10), ("s3", -1)] 0 30 100).metas sid' =
        if sid' ∈ (sessions_to_remove ["s1", "s2", "s3"]
            [("s1", (-40 : Int)), ("s2", -10), ("s3", -1)] 0 30 100).map
              SessInfo.sid
        then none else AList.get? [("s1", (-40 : Int)), ("s2", -10),
          ("s3", -1)] sid') :=
  ⟨by decide,
   (cleanup_old_sessions_spec ["s1", "s2", "s3"]
     [("s1", (-40 : Int)), ("s2", -10), ("s3", -1)] 0 30 100
     (by decide)).2.2.2.1⟩

/-! ## Text embedding — `server.SimpleEmbeddingModel.embed_text`

The source md5-hashes the text (an external library call whose contract
is a digest of 16 bytes, each `< 256`) and turns the digest into a
384-dimensional vector: a sliding 4-byte big-endian window divided by
`2**32`, padded with `0.0` and truncated to the embedding dimension.
The embedding is factored over the digest. -/

/-- Python `int.from_bytes(b, byteorder='big')`. -/
def bytesToNat : List Nat → Nat
  | [] => 0
  | b :: rest => b * 256 ^ rest.length + bytesToNat rest

/-- The loop body values: `int.from_bytes(hash_bytes[i:i+4], 'big') /
(2**32)` for `i in range(0, min(len(hash_bytes), embedding_dim // 4))`. -/
def embedCore (digest : List Nat) : List ℚ :=
  (List.range (min digest.length (384 / 4))).map
    (fun i => (bytesToNat ((digest.drop i).take 4) : ℚ) / 4294967296)

/-- Embeds `embed_text` as a function of the md5 digest: the core values, padded
with `0.0` while shorter than 384, then truncated to 384. -/
def embed_text_of_digest (digest : List Nat) : List ℚ :=
  (embedCore digest ++
    List.replicate (384 - (embedCore digest).length) 0).take 384

theorem bytesToNat_lt (l : List Nat) (hb : ∀ b ∈ l, b < 256) :
    bytesToNat l < 256 ^ l.length := by
  induction l with
  | nil => simp [bytesToNat]
  | cons b rest ih =>
      have hbb : b < 256 := hb b (by simp)
      have hr : bytesToNat rest < 256 ^ rest.length :=
        ih (fun x hx => hb x (by simp [hx]))
      have : b * 256 ^ rest.length + bytesToNat rest <
          (b + 1) * 256 ^ rest.length := by
        rw [Nat.succ_mul]
        omega
      calc bytesToNat (b :: rest) = b * 256 ^ rest.length + bytesToNat rest := rfl
        _ < (b + 1) * 256 ^ rest.length := this
        _ ≤ 256 * 256 ^ rest.length := by
            exact Nat.mul_le_mul_right _ (by omega)
        _ = 256 ^ (b :: rest).length := by
            rw [List.length_cons, pow_succ, mul_comm]

/-- Claim C9: for every md5 digest (16 bytes each `< 256` — the theorem
needs only the byte bound), the embedding has exactly 384 entries, each in
`[0, 1)`; hence every query and document embedding has the same fixed
dimension. -/
theorem embed_text_dimension (digest : List Nat)
    (hb : ∀ b ∈ digest, b < 256) :
    (embed_text_of_digest digest).length = 384 ∧
    ∀ x ∈ embed_text_of_digest digest, 0 ≤ x ∧ x < 1 := by
  have hcorelen : (embedCore digest).length ≤ 384 := by
    rw [embedCore, List.length_map, List.length_range]
    omega
  constructor
  · rw [embed_text_of_digest, List.length_take, List.length_append,
      List.length_replicate]
    omega
  · intro x hx
    have hx' : x ∈ embedCore digest ++
        List.replicate (384 - (embedCore digest).length) 0 :=
      List.mem_of_mem_take hx
    rcases List.mem_append.mp hx' with hc | hp
    · rw [embedCore] at hc
      rcases List.mem_map.mp hc with ⟨i, _, rfl⟩
      have hslice : ∀ b ∈ (digest.drop i).take 4, b < 256 := by
        intro b hbm
        exact hb b (List.mem_of_mem_drop (List.mem_of_mem_take hbm))
      have hlt : bytesToNat ((digest.drop i).take 4) < 4294967296 := by
        have h1 := bytesToNat_lt _ hslice
        have h2 : ((digest.drop i).take 4).length ≤ 4 := by
          rw [List.length_take]
          omega
        have h3 : (256 : Nat) ^ ((digest.drop i).take 4).length ≤ 256 ^ 4 :=
          Nat.pow_le_pow_right (by omega) h2
        calc bytesToNat ((digest.drop i).take 4)
            < 256 ^ ((digest.drop i).take 4).length := h1
          _ ≤ 256 ^ 4 := h3
          _ = 4294967296 := by norm_num
      constructor
      · positivity
      · rw [div_lt_one (by norm_num)]
        exact_mod_cast hlt
    · have : x = 0 := List.eq_of_mem_replicate hp
      subst this
      norm_num

/-- Witness for C9 at the all-zero digest. -/
theorem embed_text_dimension_witness :
    (∀ b ∈ List.replicate 16 0, b < 256) ∧
    (embed_text_of_digest (List.replicate 16 0)).length = 384 :=
  ⟨by decide, (embed_text_dimension (List.replicate 16 0) (by decide)).1⟩

/-! ## Intent Router — `server.classify_intent_llm`

The router sends a classification prompt to the completion service and
normalises the raw reply with `.strip().lower().split()[0]`, validating
the first token against the closed intent taxonomy with `faq` as
fallback.  `ollama_client.generate_response` returns `""` on every HTTP
error and on every raised exception, so the empty reply is exactly the
collaborator-failure case. -/

/-- The closed intent taxonomy. -/
inductive IntentLabel where
  | crop_advice
  | fertilizer
  | soil_health
  | faq
deriving DecidableEq, Repr

/-- The validation `final_intent = intent if intent in valid_intents else "faq"`. -/
def normalizeIntent (t : List Char) : IntentLabel :=
  if t = "crop_advice".toList then .crop_advice
  else if t = "fertilizer".toList then .fertilizer
  else if t = "soil_health".toList then .soil_health
  else if t = "faq".toList then .faq
  else .faq

/-- Embeds `server.classify_intent_llm` as a function of the completion
service's raw reply.  `none` embeds the uncaught `IndexError` raised by
`llm_output.strip().lower().split()[0]` when the reply has no token
(empty or whitespace-only output). -/
def classify_intent_llm (llmOutput : List Char) : Option IntentLabel :=
  match pySplitWS (pyLower (pyStrip llmOutput)) with
  | [] => none
  | t :: _ => some (normalizeIntent t)

/-- Claim C1 is violated by the code: on an empty reply — which
`generate_response` returns for every completion-call failure — the
normalisation `"".split()[0]` raises `IndexError` instead of resolving to
`faq` (embedded as `none`); the `faq` fallback fires only for non-empty
invalid tokens. -/
theorem classify_intent_empty_reply_errors :
    classify_intent_llm [] = none ∧
    classify_intent_llm ("  \n ".toList) = none ∧
    classify_intent_llm ("  Fertilizer.".toList) = some .faq ∧
    classify_intent_llm (" SOIL_HEALTH is likely".toList) =
      some .soil_health := by
  refine ⟨rfl, by decide, by decide, by decide⟩

/-! ## Similarity Index — `server.SimpleVectorDB`

Embedding vectors become lists of exact rationals.  The float value of
`np.dot(a, b) / (np.linalg.norm(a) * np.linalg.norm(b))` is kept in an
order-faithful surrogate: the numerator `dot(a, b)` together with the
squared denominator `‖a‖² · ‖b‖²`.  For positive denominators,
`n₁/√d₁ ≤ n₂/√d₂ ↔ n₁·|n₁|·d₂ ≤ n₂·|n₂|·d₁` (multiplying out and
squaring with sign preserved), so comparisons — all `np.argsort` needs —
are exact and decidable; a zero denominator marks the float NaN produced
by the unguarded `0/0`. -/

/-- Embeds `np.dot` on equal-length vectors. -/
def dotQ : List ℚ → List ℚ → ℚ
  | [], _ => 0
  | _, [] => 0
  | a :: as, b :: bs => a * b + dotQ as bs

/-- Embeds `np.linalg.norm(v) ** 2`. -/
def normSq (v : List ℚ) : ℚ := dotQ v v

/-- Absolute value `|q|` by cases, written so that concrete values evaluate by `simp` /
`norm_num`. -/
def absQ (q : ℚ) : ℚ := if q < 0 then -q else q

theorem absQ_eq_abs (q : ℚ) : absQ q = |q| := by
  rw [absQ]
  rcases lt_or_ge q 0 with h | h
  · rw [if_pos h, abs_of_neg h]
  · rw [if_neg (not_lt.mpr h), abs_of_nonneg h]

/-- The value of a cosine-similarity expression: numerator and squared
denominator. -/
structure SimVal where
  num : ℚ
  densq : ℚ
deriving DecidableEq, Repr

/-- Embeds `SimpleVectorDB._cosine_similarity`:
`np.dot(a, b) / (np.linalg.norm(a) * np.linalg.norm(b))`, unguarded. -/
def cosine_similarity (a b : List ℚ) : SimVal :=
  ⟨dotQ a b, normSq a * normSq b⟩

/-- The float value is NaN: the division was `0/0`. -/
def SimVal.isNaNF (x : SimVal) : Bool := decide (x.densq = 0)

/-- Float `≤` as `np.argsort` orders these values (NaN sorts last, i.e.
as the greatest element). -/
def SimVal.leF (x y : SimVal) : Bool :=
  if y.densq = 0 then true
  else if x.densq = 0 then false
  else decide (x.num * absQ x.num * y.densq ≤ y.num * absQ y.num * x.densq)

/-- The two values are equivalent in the sort order (equal as floats when
neither is NaN). -/
def SimVal.eqF (x y : SimVal) : Bool := x.leF y && y.leF x

/-- The float value of `s` is the rational `x` (in particular `s` is not
NaN). -/
def SimVal.denotes (s : SimVal) (x : ℚ) : Prop :=
  s.densq ≠ 0 ∧ s.num * absQ s.num = x * absQ x * s.densq

instance (s : SimVal) (x : ℚ) : Decidable (s.denotes x) :=
  inferInstanceAs
    (Decidable (s.densq ≠ 0 ∧ s.num * absQ s.num = x * absQ x * s.densq))

theorem dotQ_self_nonneg (v : List ℚ) : 0 ≤ dotQ v v := by
  induction v with
  | nil => simp [dotQ]
  | cons a as ih => exact add_nonneg (mul_self_nonneg a) ih

theorem normSq_nonneg (v : List ℚ) : 0 ≤ normSq v := dotQ_self_nonneg v

/-- Counterexample to claim C5 as stated: the code has no zero-norm
guard, so for a zero-norm vector the division is `0/0` — the float result
is NaN, not the number `0`. -/
theorem cosine_similarity_zero_norm_nan :
    normSq [(0 : ℚ), 0] = 0 ∧
    (cosine_similarity [(0 : ℚ), 0] [1, 0]).isNaNF = true ∧
    ¬ (cosine_similarity [(0 : ℚ), 0] [1, 0]).denotes 0 := by
  refine ⟨by norm_num [normSq, dotQ], by norm_num [cosine_similarity,
    SimVal.isNaNF, normSq, dotQ], ?_⟩
  intro h
  exact h.1 (by norm_num [cosine_similarity, normSq, dotQ])

/-- Claim C5 (amended): the similarity is computed as
`dot(a,b) / (|a|·|b|)` with no zero-norm guard; the computation is total
(numpy yields a value with a warning rather than raising), and when
either vector has zero norm that value is the NaN of `0/0`, not the
number `0`; the result is NaN exactly in the zero-norm case. -/
theorem cosine_similarity_spec (a b : List ℚ) :
    (cosine_similarity a b).num = dotQ a b ∧
    (cosine_similarity a b).densq = normSq a * normSq b ∧
    ((cosine_similarity a b).isNaNF = true ↔ normSq a = 0 ∨ normSq b = 0) ∧
    ((normSq a = 0 ∨ normSq b = 0) →
      ∀ x : ℚ, ¬ (cosine_similarity a b).denotes x) := by
  refine ⟨rfl, rfl, ?_, ?_⟩
  · rw [SimVal.isNaNF, decide_eq_true_iff]
    show normSq a * normSq b = 0 ↔ _
    exact mul_eq_zero
  · intro h x hden
    apply hden.1
    show normSq a * normSq b = 0
    exact mul_eq_zero.mpr h

/-- Witness for the amended C5 at a zero-norm input. -/
theorem cosine_similarity_spec_witness :
    (normSq [(0 : ℚ), 0] = 0 ∨ normSq [(1 : ℚ), 0] = 0) ∧
    ∀ x : ℚ, ¬ (cosine_similarity [(0 : ℚ), 0] [1, 0]).denotes x :=
  ⟨Or.inl (by norm_num [normSq, dotQ]),
   (cosine_similarity_spec [0, 0] [1, 0]).2.2.2
     (Or.inl (by norm_num [normSq, dotQ]))⟩

theorem leF_total (x y : SimVal) : x.leF y = true ∨ y.leF x = true := by
  unfold SimVal.leF
  by_cases hy : y.densq = 0
  · left
    rw [if_pos hy]
  · by_cases hx : x.densq = 0
    · right
      rw [if_pos hx]
    · rw [if_neg hy, if_neg hx, if_neg hx, if_neg hy]
      rcases le_total (x.num * absQ x.num * y.densq)
          (y.num * absQ y.num * x.densq) with h | h
      · exact Or.inl (by simpa using h)
      · exact Or.inr (by simpa using h)

theorem leF_trans (x y z : SimVal) (hx : 0 ≤ x.densq) (hy : 0 ≤ y.densq)
    (hz : 0 ≤ z.densq) (h1 : x.leF y = true) (h2 : y.leF z = true) :
    x.leF z = true := by
  unfold SimVal.leF at *
  by_cases hzz : z.densq = 0
  · rw [if_pos hzz]
  · rw [if_neg hzz] at h2 ⊢
    by_cases hyy : y.densq = 0
    · rw [if_pos hyy] at h2
      exact absurd h2 (by simp)
    · rw [if_neg hyy] at h1 h2
      by_cases hxx : x.densq = 0
      · rw [if_pos hxx] at h1
        exact absurd h1 (by simp)
      · rw [if_neg hxx] at h1 ⊢
        rw [decide_eq_true_iff] at h1 h2 ⊢
        simp only [absQ_eq_abs] at h1 h2 ⊢
        have hxp : 0 < x.densq := lt_of_le_of_ne hx (Ne.symm hxx)
        have hyp : 0 < y.densq := lt_of_le_of_ne hy (Ne.symm hyy)
        have hzp : 0 < z.densq := lt_of_le_of_ne hz (Ne.symm hzz)
        have ha := mul_le_mul_of_nonneg_right h1 (le_of_lt hzp)
        have hb := mul_le_mul_of_nonneg_right h2 (le_of_lt hxp)
        have hc : x.num * |x.num| * z.densq * y.densq ≤
            z.num * |z.num| * x.densq * y.densq := by nlinarith
        exact le_of_mul_le_mul_right hc hyp

/-- Index comparison by similarity key, as `np.argsort` compares. -/
def idxLE (ks : List SimVal) (i j : Nat) : Bool :=
  SimVal.leF (ks.getD i ⟨0, 0⟩) (ks.getD j ⟨0, 0⟩)

/-- Embeds `np.argsort(similarities)`: the indices `0 .. n-1`, stably sorted
into ascending key order. -/
def argsortF (ks : List SimVal) : List Nat :=
  stableSortLE (idxLE ks) (List.range ks.length)

/-- Python slice `l[-k:]`; for `k = 0` this is the whole list. -/
def pyLastSlice {α : Type} (k : Nat) (l : List α) : List α :=
  if k = 0 then l else l.drop (l.length - k)

/-- Embeds `np.argsort(similarities)[-top_k:][::-1]`. -/
def topIndices (ks : List SimVal) (k : Nat) : List Nat :=
  (pyLastSlice k (argsortF ks)).reverse

/-- A knowledge-base document (`title`/`content` fields). -/
structure Doc where
  title : String
  content : String
deriving DecidableEq, Repr

/-- The `SimpleVectorDB.__init__` state: parallel lists of documents,
embeddings and ids. -/
structure VecDB where
  documents : List Doc
  embeddings : List (List ℚ)
  doc_ids : List String
deriving DecidableEq, Repr

def emptyVecDB : VecDB := ⟨[], [], []⟩

/-- Embeds `SimpleVectorDB.add_documents` (ids come from the batch-local
`range(len(documents))`). -/
def add_documents (db : VecDB) (docs : List Doc) (embs : List (List ℚ)) :
    VecDB :=
  ⟨db.documents ++ docs, db.embeddings ++ embs,
   db.doc_ids ++ (List.range docs.length).map (fun i => "doc_" ++ toString i)⟩

/-- One entry of the result list of `search`. -/
structure SearchResult where
  id : String
  content : String
  title : String
  similarity : SimVal
deriving DecidableEq, Repr

/-- The `similarities` list of `search`. -/
def simsOf (db : VecDB) (query : List ℚ) : List SimVal :=
  db.embeddings.map (fun d => cosine_similarity query d)

/-- The result record built for one index. -/
def mkResult (db : VecDB) (query : List ℚ) (idx : Nat) : SearchResult :=
  ⟨db.doc_ids.getD idx "",
   (db.documents.getD idx ⟨"", ""⟩).content,
   (db.documents.getD idx ⟨"", ""⟩).title,
   (simsOf db query).getD idx ⟨0, 0⟩⟩

/-- Embeds `SimpleVectorDB.search`. -/
def search (db : VecDB) (query : List ℚ) (top_k : Nat) : List SearchResult :=
  if db.embeddings.isEmpty then []
  else (topIndices (simsOf db query) top_k).map (mkResult db query)

/-- The tie-broken strict priority `np.argsort` realises on indices:
ascending key, and equal keys in ascending index order (stability). -/
def idxLT (ks : List SimVal) (i j : Nat) : Prop :=
  idxLE ks i j = true ∧ (idxLE ks j i = true → i < j)

theorem getD_densq_nonneg (ks : List SimVal)
    (hpos : ∀ s ∈ ks, 0 ≤ s.densq) (i : Nat) :
    0 ≤ (ks.getD i ⟨0, 0⟩).densq := by
  induction ks generalizing i with
  | nil => simp [List.getD]
  | cons a t ih =>
      cases i with
      | zero => exact hpos a (by simp)
      | succ n => exact ih (fun s hs => hpos s (by simp [hs])) n

theorem idxLE_total (ks : List SimVal) (i j : Nat) :
    idxLE ks i j = true ∨ idxLE ks j i = true := leF_total _ _

theorem idxLE_trans (ks : List SimVal) (hpos : ∀ s ∈ ks, 0 ≤ s.densq)
    (i j l : Nat) (h1 : idxLE ks i j = true) (h2 : idxLE ks j l = true) :
    idxLE ks i l = true :=
  leF_trans _ _ _ (getD_densq_nonneg ks hpos i) (getD_densq_nonneg ks hpos j)
    (getD_densq_nonneg ks hpos l) h1 h2

theorem insertLE_pairwise_idx (ks : List SimVal)
    (hpos : ∀ s ∈ ks, 0 ≤ s.densq) (x : Nat) (acc : List Nat)
    (hacc : acc.Pairwise (idxLT ks)) (hless : ∀ y ∈ acc, y < x) :
    (insertLE (idxLE ks) x acc).Pairwise (idxLT ks) := by
  induction acc with
  | nil => simp [insertLE, idxLT]
  | cons y ys ih =>
      rcases List.pairwise_cons.mp hacc with ⟨hy, hys⟩
      have hyx : y < x := hless y (by simp)
      by_cases hle : idxLE ks y x = true
      · rw [insertLE, if_pos hle]
        refine List.pairwise_cons.mpr
          ⟨?_, ih hys (fun z hz => hless z (by simp [hz]))⟩
        intro z hz
        rcases (mem_insertLE (idxLE ks) x ys z).mp hz with rfl | hz2
        · exact ⟨hle, fun _ => hyx⟩
        · exact hy z hz2
      · rw [insertLE, if_neg hle]
        have hxy : idxLE ks x y = true := (idxLE_total ks y x).resolve_left hle
        refine List.pairwise_cons.mpr ⟨?_, hacc⟩
        intro z hz
        rcases List.mem_cons.mp hz with rfl | hz2
        · exact ⟨hxy, fun hyx2 => absurd hyx2 hle⟩
        · have hyz := (hy z hz2).1
          refine ⟨idxLE_trans ks hpos x y z hxy hyz, ?_⟩
          intro hzx
          exact absurd (idxLE_trans ks hpos y z x hyz hzx) hle

theorem sortAux_pairwise_idx (ks : List SimVal)
    (hpos : ∀ s ∈ ks, 0 ≤ s.densq) :
    ∀ (l acc : List Nat), acc.Pairwise (idxLT ks) →
      (∀ y ∈ acc, ∀ x ∈ l, y < x) → l.Pairwise (· < ·) →
      (l.foldl (fun a x => insertLE (idxLE ks) x a) acc).Pairwise (idxLT ks)
  | [], acc, hacc, _, _ => hacc
  | x :: xs, acc, hacc, hcross, hl => by
      rw [List.foldl_cons]
      have hl' := List.pairwise_cons.mp hl
      refine sortAux_pairwise_idx ks hpos xs (insertLE (idxLE ks) x acc)
        (insertLE_pairwise_idx ks hpos x acc hacc
          (fun y hy => hcross y hy x (by simp)))
        ?_ hl'.2
      intro y hy z hz
      rcases (mem_insertLE (idxLE ks) x acc y).mp hy with rfl | hya
      · exact hl'.1 z hz
      · exact hcross y hya z (by simp [hz])

theorem argsortF_pairwise (ks : List SimVal)
    (hpos : ∀ s ∈ ks, 0 ≤ s.densq) :
    (argsortF ks).Pairwise (idxLT ks) := by
  rw [argsortF, stableSortLE]
  exact sortAux_pairwise_idx ks hpos (List.range ks.length) []
    (by simp) (by simp) (List.pairwise_lt_range _)

theorem argsortF_length (ks : List SimVal) :
    (argsortF ks).length = ks.length := by
  rw [argsortF, (stableSortLE_perm _ _).length_eq, List.length_range]

theorem topIndices_length (ks : List SimVal) (k : Nat) :
    (topIndices ks k).length =
      if k = 0 then ks.length else min k ks.length := by
  rw [topIndices, List.length_reverse, pyLastSlice]
  by_cases hk : k = 0
  · rw [if_pos hk, if_pos hk, argsortF_length]
  · rw [if_neg hk, if_neg hk, List.length_drop, argsortF_length]
    omega

theorem topIndices_pairwise (ks : List SimVal)
    (hpos : ∀ s ∈ ks, 0 ≤ s.densq) (k : Nat) :
    (topIndices ks k).Pairwise (fun i j => idxLT ks j i) := by
  rw [topIndices]
  apply List.pairwise_reverse.mpr
  have hsub : (pyLastSlice k (argsortF ks)).Sublist (argsortF ks) := by
    rw [pyLastSlice]
    split
    · exact List.Sublist.refl _
    · exact List.drop_sublist _ _
  exact List.Pairwise.sublist hsub (argsortF_pairwise ks hpos)

/-- Counterexample to claim C4 as stated: two documents with equal cosine
similarity to the query (`[1,0]` and `[2,0]` against query `[1,0]`) come
back with the LATER-inserted document first — the ascending stable argsort
is reversed, so ties break in reverse insertion order, not insertion
order; moreover `k = 0` (Python slice `[-0:]`) returns all documents, not
at most `0`. -/
theorem search_tie_reverse_order :
    SimVal.eqF (cosine_similarity [(1 : ℚ), 0] [1, 0])
      (cosine_similarity [(1 : ℚ), 0] [2, 0]) = true ∧
    (search (add_documents emptyVecDB [⟨"A", "ca"⟩, ⟨"B", "cb"⟩]
        [[(1 : ℚ), 0], [2, 0]]) [1, 0] 3).map SearchResult.title =
      ["B", "A"] ∧
    (search (add_documents emptyVecDB [⟨"A", "ca"⟩, ⟨"B", "cb"⟩]
        [[(1 : ℚ), 0], [2, 0]]) [1, 0] 0).length = 2 := by
  have hA : cosine_similarity [(1 : ℚ), 0] [1, 0] = ⟨1, 1⟩ := by
    norm_num [cosine_similarity, dotQ, normSq]
  have hB : cosine_similarity [(1 : ℚ), 0] [2, 0] = ⟨2, 4⟩ := by
    norm_num [cosine_similarity, dotQ, normSq]
  have hks : simsOf (add_documents emptyVecDB [⟨"A", "ca"⟩, ⟨"B", "cb"⟩]
      [[(1 : ℚ), 0], [2, 0]]) [1, 0] = [⟨1, 1⟩, ⟨2, 4⟩] := by
    rw [simsOf]
    rw [show (add_documents emptyVecDB [⟨"A", "ca"⟩, ⟨"B", "cb"⟩]
        [[(1 : ℚ), 0], [2, 0]]).embeddings = [[(1 : ℚ), 0], [2, 0]] from rfl]
    rw [List.map_cons, List.map_cons, List.map_nil, hA, hB]
  have h12 : SimVal.leF ⟨1, 1⟩ ⟨2, 4⟩ = true := by
    norm_num [SimVal.leF, absQ]
  have h21 : SimVal.leF ⟨2, 4⟩ ⟨1, 1⟩ = true := by
    norm_num [SimVal.leF, absQ]
  have hsort : argsortF [(⟨1, 1⟩ : SimVal), ⟨2, 4⟩] = [0, 1] := by
    rw [argsortF]
    have hrange : List.range ([(⟨1, 1⟩ : SimVal), ⟨2, 4⟩].length) = [0, 1] := by
      simp [List.range_succ]
    rw [hrange, stableSortLE]
    simp only [List.foldl_cons, List.foldl_nil]
    rw [show insertLE (idxLE [(⟨1, 1⟩ : SimVal), ⟨2, 4⟩]) 0 [] = [0] from rfl]
    rw [insertLE]
    rw [show idxLE [(⟨1, 1⟩ : SimVal), ⟨2, 4⟩] 0 1 = true from h12]
    rw [if_pos rfl]
    rfl
  have htop3 : topIndices [(⟨1, 1⟩ : SimVal), ⟨2, 4⟩] 3 = [1, 0] := by
    rw [topIndices, pyLastSlice, if_neg (by norm_num), hsort]
    rfl
  have htop0 : topIndices [(⟨1, 1⟩ : SimVal), ⟨2, 4⟩] 0 = [1, 0] := by
    rw [topIndices, pyLastSlice, if_pos rfl, hsort]
    rfl
  have hne : ¬((add_documents emptyVecDB [⟨"A", "ca"⟩, ⟨"B", "cb"⟩]
      [[(1 : ℚ), 0], [2, 0]]).embeddings.isEmpty = true) := by
    rw [show (add_documents emptyVecDB [⟨"A", "ca"⟩, ⟨"B", "cb"⟩]
        [[(1 : ℚ), 0], [2, 0]]).embeddings = [[(1 : ℚ), 0], [2, 0]] from rfl]
    simp
  refine ⟨?_, ?_, ?_⟩
  · rw [hA, hB, SimVal.eqF, h12, h21]
    rfl
  · rw [search, if_neg hne, hks, htop3]
    rfl
  · rw [search, if_neg hne, hks, htop0]
    rfl

/-- Claim C4 (amended): `search` on an empty index returns `[]` (never an
error); on any index it returns `min k n` results for `k ≥ 1` (hence at
most `k`) and all `n` documents for `k = 0` (Python's `[-0:]` slice is
the whole array); results are ordered by descending cosine similarity;
ties between equal-similarity documents are broken by REVERSE insertion
order — in the index sequence driving the results, a pair of tied
positions always has the larger (later-inserted) document index first. -/
theorem search_spec (db : VecDB) (query : List ℚ) (k : Nat) :
    (db.embeddings = [] → search db query k = []) ∧
    (k = 0 → (search db query k).length = db.embeddings.length) ∧
    (k ≠ 0 → (search db query k).length = min k db.embeddings.length) ∧
    (search db query k).Pairwise
      (fun r1 r2 => SimVal.leF r2.similarity r1.similarity = true) ∧
    (topIndices (simsOf db query) k).Pairwise
      (fun i j => SimVal.eqF ((simsOf db query).getD i ⟨0, 0⟩)
          ((simsOf db query).getD j ⟨0, 0⟩) = true → j < i) ∧
    (db.embeddings ≠ [] →
      search db query k =
        (topIndices (simsOf db query) k).map (mkResult db query)) := by
  have hpos : ∀ s ∈ simsOf db query, 0 ≤ s.densq := by
    intro s hs
    rcases List.mem_map.mp hs with ⟨d, _, rfl⟩
    exact mul_nonneg (normSq_nonneg query) (normSq_nonneg d)
  have hkslen : (simsOf db query).length = db.embeddings.length :=
    List.length_map _ _
  have htop := topIndices_pairwise (simsOf db query) hpos k
  refine ⟨?_, ?_, ?_, ?_, ?_, ?_⟩
  · intro h
    rw [search, if_pos (by simp [h])]
  · intro hk
    by_cases hemb : db.embeddings.isEmpty
    · rw [search, if_pos hemb, List.isEmpty_iff.mp hemb]
      rfl
    · rw [search, if_neg hemb, List.length_map, topIndices_length,
        if_pos hk, hkslen]
  · intro hk
    by_cases hemb : db.embeddings.isEmpty
    · rw [search, if_pos hemb, List.isEmpty_iff.mp hemb]
      simp
    · rw [search, if_neg hemb, List.length_map, topIndices_length,
        if_neg hk, hkslen]
  · by_cases hemb : db.embeddings.isEmpty
    · rw [search, if_pos hemb]
      exact List.Pairwise.nil
    · rw [search, if_neg hemb, List.pairwise_map]
      refine htop.imp ?_
      intro i j hij
      exact hij.1
  · refine htop.imp ?_
    intro i j hij heq
    rw [SimVal.eqF, Bool.and_eq_true] at heq
    exact hij.2 heq.1
  · intro h
    rw [search, if_neg (by simpa using h)]

/-- Witness for the amended C4 on a concrete two-document index with
`k = 3`. -/
theorem search_spec_witness :
    ((3 : Nat) ≠ 0) ∧
    (search (add_documents emptyVecDB [⟨"A", "ca"⟩, ⟨"B", "cb"⟩]
        [[(1 : ℚ), 0], [2, 0]]) [1, 0] 3).length =
      min 3 (add_documents emptyVecDB [⟨"A", "ca"⟩, ⟨"B", "cb"⟩]
        [[(1 : ℚ), 0], [2, 0]]).embeddings.length :=
  ⟨by decide, (search_spec _ _ 3).2.2.1 (by decide)⟩

end SmartFarm
